import Mathlib

/-!
Verification of the VL1 core against its implementation sources.

Shallow embedding of:
* `src/zssp/src/fragged.rs` — the fragment reassembler (`Fragged`, `Assembled`);
* `src/zssp/src/sessionid.rs` — the 48-bit session identifier;
* `src/network-hypervisor/src/vl1/node.rs` — root/online state, root-set
  updates, ingress dispatch and forwarding.

Machine integers (`u64`, `u8`) are modelled as `Nat` (all operations involved
stay below `2 ^ 64`, so no wraparound occurs); `i64` timestamps are modelled
as `Int`. `MaybeUninit<Fragment>` slots are modelled as `Option` values, with
`none` standing for an uninitialized (or dropped) slot.
-/

set_option maxHeartbeats 1000000

namespace ZT

/-! ### Fragment reassembler (`src/zssp/src/fragged.rs`) -/

/-- State of `Fragged<Fragment, MAX_FRAGMENTS>`: a `u64` bitmap of held slots,
the current message counter, and the slot array (length `MAX_FRAGMENTS`,
uninitialized slots modelled as `none`). -/
structure Fragged (α : Type) where
  haveBits : Nat
  counter : Nat
  frags : List (Option α)
deriving DecidableEq

/-- `Assembled(frags, fragment_count)`: the raw slot array together with the
number of valid leading elements. -/
structure Assembled (α : Type) where
  arr : List (Option α)
  len : Nat
deriving DecidableEq

/-- `Assembled::as_ref`: the view of exactly `len` leading elements. -/
def Assembled.as_ref {α : Type} (a : Assembled α) : List (Option α) :=
  a.arr.take a.len

/-- `Fragged::new()`: zeroed state (empty bitmap, counter 0, all slots
uninitialized). -/
def Fragged.new (α : Type) (MAX : Nat) : Fragged α :=
  ⟨0, 0, List.replicate MAX none⟩

/-- The drop loop run on a counter change: every slot whose bit is set in the
bitmap is dropped (becomes uninitialized); other slots are kept.  Mirrors the
`while have != 0` loop of `Fragged::assemble`, which walks the bitmap
right-shifting it one bit per slot. -/
def clearHeld {α : Type} : Nat → List (Option α) → List (Option α)
  | _, [] => []
  | bits, v :: rest => (if bits % 2 = 1 then none else v) :: clearHeld (bits / 2) rest

/-- The `counter != self.counter` branch of `Fragged::assemble`: replace the
counter, drop all held slots, clear the bitmap. -/
def Fragged.resetIfNewCounter {α : Type} (st : Fragged α) (counter : Nat) : Fragged α :=
  if counter ≠ st.counter then
    ⟨0, counter, clearHeld st.haveBits st.frags⟩
  else st

/-- `Fragged::assemble(counter, fragment, fragment_no, fragment_count)`.
Returns the updated reassembler state together with the optional
`Assembled` result.  Follows the source line by line: the guard
`fragment_no < fragment_count && fragment_count <= MAX_FRAGMENTS`, the
counter-change reset, the slot write, the `want` mask computed as
`0xffffffffffffffff >> (64 - fragment_count)`, the bitmap update, and the
completeness test `(have & want) == want`. -/
def Fragged.assemble {α : Type} (MAX : Nat) (st : Fragged α) (counter : Nat)
    (fragment : α) (fragment_no fragment_count : Nat) :
    Fragged α × Option (Assembled α) :=
  if fragment_no < fragment_count ∧ fragment_count ≤ MAX then
    let st1 := st.resetIfNewCounter counter
    let frags1 := st1.frags.set fragment_no (some fragment)
    let want := (2 ^ 64 - 1) >>> (64 - fragment_count)
    let have1 := st1.haveBits ||| (1 <<< fragment_no)
    if have1 &&& want = want then
      (⟨0, st1.counter, frags1⟩, some ⟨frags1, fragment_count⟩)
    else
      (⟨have1, st1.counter, frags1⟩, none)
  else (st, none)

/-- Sequential delivery of fragments: deliver fragment `f i` with ordinal `i`
for each `i` in the list, all with the same counter `c` and total count `N`,
collecting the per-call results. -/
def Fragged.assembleRun {α : Type} (MAX c : Nat) (f : Nat → α) (N : Nat) :
    Fragged α → List Nat → Fragged α × List (Option (Assembled α))
  | st, [] => (st, [])
  | st, i :: rest =>
    let p := Fragged.assemble MAX st c (f i) i N
    let q := Fragged.assembleRun MAX c f N p.1 rest
    (q.1, p.2 :: q.2)

/-! ### Session identifier (`src/zssp/src/sessionid.rs`) -/

namespace SessionId

/-- `SessionId::MAX = 0xffffffffffff` (48 bits of ones). -/
def MAX : Nat := 0xffffffffffff

/-- `SessionId::new(i)`: asserts `i <= MAX` and that `i` is nonzero (a panic in
the source is modelled as `none`); otherwise the session id holds value `i`. -/
def new (i : Nat) : Option Nat :=
  if i ≤ MAX ∧ i ≠ 0 then some i else none

/-- `SessionId::as_bytes()`: the first six bytes of the little-endian stored
`u64` word, i.e. byte `k` is `(i >> 8k) & 0xff`. -/
def as_bytes (i : Nat) : List Nat :=
  (List.range 6).map (fun k => (i >>> (8 * k)) % 256)

/-- Little-endian `u64::from_ne_bytes` on a little-endian platform: assemble a
byte list into a number, least-significant byte first. -/
def u64FromLEBytes (b : List Nat) : Nat :=
  b.foldr (fun byte acc => byte + 256 * acc) 0

/-- `SessionId::new_from_u64_le(i)`: mask to 48 bits and reject zero. -/
def new_from_u64_le (i : Nat) : Option Nat :=
  if i &&& MAX = 0 then none else some (i &&& MAX)

/-- `SessionId::new_from_bytes(b)`: zero-extend the six bytes to eight and
parse the little-endian word. -/
def new_from_bytes (b : List Nat) : Option Nat :=
  new_from_u64_le (u64FromLEBytes (b ++ [0, 0]))

/-- `SessionId::random()`: from one output `x` of the (non-cryptographic)
`xorshift64_random` PRNG, the id value is `(x % (MAX - 1)) + 1`. -/
def random (x : Nat) : Nat :=
  (x % (MAX - 1)) + 1

end SessionId

end ZT

namespace ZT

/-! ### Basic facts about `clearHeld` and bit masks -/

theorem clearHeld_zero {α : Type} (l : List (Option α)) : clearHeld 0 l = l := by
  induction l with
  | nil => rfl
  | cons v rest ih => simp [clearHeld, ih]

theorem clearHeld_length {α : Type} (bits : Nat) (l : List (Option α)) :
    (clearHeld bits l).length = l.length := by
  induction l generalizing bits with
  | nil => rfl
  | cons v rest ih => simp [clearHeld, ih]

theorem clearHeld_getElem? {α : Type} (bits : Nat) (l : List (Option α)) (i : Nat) :
    (clearHeld bits l)[i]? = l[i]?.map (fun v => if bits.testBit i then none else v) := by
  induction l generalizing bits i with
  | nil => simp [clearHeld]
  | cons v rest ih =>
    cases i with
    | zero =>
      simp [clearHeld, Nat.testBit_zero]
    | succ i =>
      simp [clearHeld, ih (bits / 2) i, Nat.testBit_add_one]

/-- Bitmap of a list of slot ordinals, built the way `assemble` builds `have`:
or-ing in `1 << i` for each delivered ordinal `i`. -/
def bitmask (l : List Nat) : Nat :=
  l.foldr (fun i m => (1 <<< i) ||| m) 0

theorem testBit_bitmask (l : List Nat) (j : Nat) :
    (bitmask l).testBit j = decide (j ∈ l) := by
  induction l with
  | nil => simp [bitmask]
  | cons i rest ih =>
    show ((1 <<< i) ||| bitmask rest).testBit j = _
    rw [Nat.testBit_or, ih, Nat.one_shiftLeft, Nat.testBit_two_pow]
    simp [List.mem_cons, eq_comm]

theorem testBit_want {cnt : Nat} (hcnt : cnt ≤ 64) (j : Nat) :
    ((2 ^ 64 - 1) >>> (64 - cnt)).testBit j = decide (j < cnt) := by
  rw [Nat.testBit_shiftRight, Nat.testBit_two_pow_sub_one]
  by_cases h : j < cnt
  · simp only [h, decide_True]
    have : 64 - cnt + j < 64 := by omega
    simp [this]
  · simp only [h, decide_False]
    have : ¬ (64 - cnt + j < 64) := by omega
    simp [this]

theorem land_want_iff {h cnt : Nat} (hcnt : cnt ≤ 64) :
    h &&& ((2 ^ 64 - 1) >>> (64 - cnt)) = (2 ^ 64 - 1) >>> (64 - cnt) ↔
      ∀ j, j < cnt → h.testBit j = true := by
  constructor
  · intro he j hj
    have := congrArg (fun x => Nat.testBit x j) he
    simp only [Nat.testBit_and, testBit_want hcnt] at this
    simpa [hj] using this
  · intro hall
    apply Nat.eq_of_testBit_eq
    intro j
    rw [Nat.testBit_and, testBit_want hcnt]
    by_cases hj : j < cnt
    · simp [hj, hall j hj]
    · simp [hj]

end ZT

namespace ZT

/-! ### Intermediate reassembler states during one message -/

/-- Slot array after the fragments with ordinals in `done` (all below `MAX`)
have been written with contents `f`. -/
def fragsOf {α : Type} (f : Nat → α) (MAX : Nat) (done : List Nat) : List (Option α) :=
  (List.range MAX).map (fun j => if j ∈ done then some (f j) else none)

/-- Reassembler state mid-message: counter `c`, bitmap and slots reflecting
exactly the delivered ordinals `done`. -/
def midState {α : Type} (c : Nat) (f : Nat → α) (MAX : Nat) (done : List Nat) : Fragged α :=
  ⟨bitmask done, c, fragsOf f MAX done⟩

theorem fragsOf_nil {α : Type} (f : Nat → α) (MAX : Nat) :
    fragsOf f MAX ([] : List Nat) = List.replicate MAX none := by
  apply List.ext_getElem
  · simp [fragsOf]
  · intro j h1 h2
    simp [fragsOf]

theorem fragsOf_length {α : Type} (f : Nat → α) (MAX : Nat) (done : List Nat) :
    (fragsOf f MAX done).length = MAX := by
  simp [fragsOf]

theorem fragsOf_set {α : Type} (f : Nat → α) (MAX : Nat) (done : List Nat)
    {i : Nat} (hi : i < MAX) :
    (fragsOf f MAX done).set i (some (f i)) = fragsOf f MAX (i :: done) := by
  apply List.ext_getElem
  · simp [fragsOf]
  · intro j h1 h2
    have hj : j < MAX := by simpa [fragsOf] using h2
    rw [List.getElem_set]
    by_cases hij : i = j
    · subst hij
      simp [fragsOf, hi]
    · have hji : ¬ j = i := fun h => hij h.symm
      by_cases hjd : j ∈ done <;> simp [fragsOf, hj, hij, hji, hjd]

theorem new_resetIfNewCounter {α : Type} (MAX c : Nat) (f : Nat → α) :
    (Fragged.new α MAX).resetIfNewCounter c = midState c f MAX [] := by
  by_cases hc : c = 0
  · subst hc
    simp [Fragged.new, Fragged.resetIfNewCounter, midState, bitmask, fragsOf_nil]
  · simp [Fragged.new, Fragged.resetIfNewCounter, hc, midState, bitmask, fragsOf_nil,
      clearHeld_zero]

theorem midState_resetIfNewCounter {α : Type} (MAX c : Nat) (f : Nat → α) (done : List Nat) :
    (midState c f MAX done).resetIfNewCounter c = midState c f MAX done := by
  simp [Fragged.resetIfNewCounter, midState]

/-- Unfolding of `assemble` when the counter matches the stored one and the
argument guard holds. -/
theorem assemble_counter_eq {α : Type} (MAX hb c : Nat) (fr : List (Option α))
    (x : α) (no cnt : Nat) (hguard : no < cnt ∧ cnt ≤ MAX) :
    Fragged.assemble MAX ⟨hb, c, fr⟩ c x no cnt =
      if (hb ||| (1 <<< no)) &&& ((2 ^ 64 - 1) >>> (64 - cnt)) =
          (2 ^ 64 - 1) >>> (64 - cnt) then
        (⟨0, c, fr.set no (some x)⟩, some ⟨fr.set no (some x), cnt⟩)
      else
        (⟨hb ||| (1 <<< no), c, fr.set no (some x)⟩, none) := by
  unfold Fragged.assemble Fragged.resetIfNewCounter
  simp [hguard]

/-- Unfolding of `assemble` when the counter differs from the stored one and
the argument guard holds: held slots are dropped and the bitmap restarts from
zero before the new fragment is recorded. -/
theorem assemble_counter_ne {α : Type} (MAX : Nat) (st : Fragged α) (c : Nat)
    (hc : c ≠ st.counter) (x : α) (no cnt : Nat) (hguard : no < cnt ∧ cnt ≤ MAX) :
    Fragged.assemble MAX st c x no cnt =
      if (0 ||| (1 <<< no)) &&& ((2 ^ 64 - 1) >>> (64 - cnt)) =
          (2 ^ 64 - 1) >>> (64 - cnt) then
        (⟨0, c, (clearHeld st.haveBits st.frags).set no (some x)⟩,
          some ⟨(clearHeld st.haveBits st.frags).set no (some x), cnt⟩)
      else
        (⟨0 ||| (1 <<< no), c, (clearHeld st.haveBits st.frags).set no (some x)⟩,
          none) := by
  unfold Fragged.assemble Fragged.resetIfNewCounter
  simp [hguard, hc]

/-- A delivered-ordinal set covering `[0, N)` makes the completeness test of
`assemble` succeed, and conversely. -/
theorem bitmask_complete_iff {N : Nat} (hN64 : N ≤ 64) (l : List Nat) :
    (bitmask l &&& ((2 ^ 64 - 1) >>> (64 - N)) = (2 ^ 64 - 1) >>> (64 - N)) ↔
      ∀ j, j < N → j ∈ l := by
  rw [land_want_iff hN64]
  constructor
  · intro hall j hj
    have := hall j hj
    rw [testBit_bitmask] at this
    exact of_decide_eq_true this
  · intro hall j hj
    rw [testBit_bitmask]
    exact decide_eq_true (hall j hj)

/-- One `assemble` call on a mid-message state with a fresh ordinal `i`:
either the message is now complete (every ordinal below `N` delivered) and
the call returns the assembled slots, or it records `i` and returns `none`. -/
theorem assemble_midState {α : Type} (MAX N c i : Nat) (f : Nat → α) (done : List Nat)
    (hNM : N ≤ MAX) (hM : MAX ≤ 64) (hi : i < N) :
    Fragged.assemble MAX (midState c f MAX done) c (f i) i N =
      if ∀ j, j < N → j ∈ i :: done then
        (⟨0, c, fragsOf f MAX (i :: done)⟩, some ⟨fragsOf f MAX (i :: done), N⟩)
      else
        (midState c f MAX (i :: done), none) := by
  have hguard : i < N ∧ N ≤ MAX := ⟨hi, hNM⟩
  have hN64 : N ≤ 64 := le_trans hNM hM
  have hiM : i < MAX := lt_of_lt_of_le hi hNM
  have hfrags : (fragsOf f MAX done).set i (some (f i)) = fragsOf f MAX (i :: done) :=
    fragsOf_set f MAX done hiM
  have hhave : bitmask done ||| (1 <<< i) = bitmask (i :: done) := Nat.lor_comm _ _
  rw [show midState c f MAX done = ⟨bitmask done, c, fragsOf f MAX done⟩ from rfl,
    assemble_counter_eq MAX (bitmask done) c (fragsOf f MAX done) (f i) i N hguard,
    hfrags, hhave]
  by_cases hdone : ∀ j, j < N → j ∈ i :: done
  · rw [if_pos hdone, if_pos ((bitmask_complete_iff hN64 (i :: done)).mpr hdone)]
  · rw [if_neg hdone, if_neg
      (fun h => hdone ((bitmask_complete_iff hN64 (i :: done)).mp h))]
    rfl

end ZT

namespace ZT

theorem fragsOf_take {α : Type} (f : Nat → α) {MAX N : Nat} (s : List Nat)
    (hNM : N ≤ MAX) (hcov : ∀ j, j < N → j ∈ s) :
    (fragsOf f MAX s).take N = (List.range N).map (fun j => some (f j)) := by
  apply List.ext_getElem
  · simp [fragsOf]
    omega
  · intro j h1 h2
    have hjN : j < N := by simpa using h2
    have hjM : j < MAX := lt_of_lt_of_le hjN hNM
    rw [List.getElem_take]
    simp [fragsOf, hjM, hcov j hjN]

theorem assemble_new {α : Type} (MAX c : Nat) (f : Nat → α) (x : α) (no cnt : Nat)
    (hguard : no < cnt ∧ cnt ≤ MAX) :
    Fragged.assemble MAX (Fragged.new α MAX) c x no cnt =
      Fragged.assemble MAX (midState c f MAX []) c x no cnt := by
  by_cases hc : c = 0
  · subst hc
    have hm : midState 0 f MAX [] = Fragged.new α MAX := by
      simp [midState, Fragged.new, fragsOf_nil, bitmask]
    rw [hm]
  · have hm : midState c f MAX [] = ⟨0, c, List.replicate MAX none⟩ := by
      simp [midState, fragsOf_nil, bitmask]
    rw [hm, assemble_counter_eq MAX 0 c (List.replicate MAX none) x no cnt hguard,
      assemble_counter_ne MAX (Fragged.new α MAX) c hc x no cnt hguard]
    show (if _ then _ else _) = _
    rw [show clearHeld (Fragged.new α MAX).haveBits (Fragged.new α MAX).frags =
      List.replicate MAX none from clearHeld_zero _]

/-- Running the remaining fragments of one message from a mid-message state:
every call but the last returns `none`, the last returns the assembled view of
all `N` fragments in ordinal order. -/
theorem assembleRun_midState {α : Type} (MAX N c : Nat) (f : Nat → α)
    (hNM : N ≤ MAX) (hM : MAX ≤ 64) :
    ∀ (rest done : List Nat), rest ≠ [] →
      List.Perm (done ++ rest) (List.range N) →
      ∃ asm : Assembled α,
        (Fragged.assembleRun MAX c f N (midState c f MAX done) rest).2 =
          List.replicate (rest.length - 1) none ++ [some asm] ∧
        asm.as_ref = (List.range N).map (fun j => some (f j)) := by
  intro rest
  induction rest with
  | nil => intro done hne _; exact absurd rfl hne
  | cons i r ih =>
    intro done _ hperm
    have hiN : i < N := by
      have : i ∈ List.range N := hperm.mem_iff.mp (by simp)
      simpa [List.mem_range] using this
    cases r with
    | nil =>
      have hcov : ∀ j, j < N → j ∈ i :: done := by
        intro j hj
        have : j ∈ done ++ [i] := hperm.symm.mem_iff.mp (by simp [List.mem_range, hj])
        rcases List.mem_append.mp this with h | h
        · exact List.mem_cons_of_mem i h
        · simp only [List.mem_singleton] at h
          exact h ▸ List.mem_cons_self i done
      refine ⟨⟨fragsOf f MAX (i :: done), N⟩, ?_, ?_⟩
      · show (Fragged.assembleRun MAX c f N _ [i]).2 = _
        simp only [Fragged.assembleRun]
        rw [assemble_midState MAX N c i f done hNM hM hiN, if_pos hcov]
        rfl
      · show (fragsOf f MAX (i :: done)).take N = _
        exact fragsOf_take f (i :: done) hNM hcov
    | cons j0 r2 =>
      have hnodup : (done ++ i :: j0 :: r2).Nodup :=
        hperm.symm.nodup (List.nodup_range N)
      have hij0 : j0 ≠ i := by
        have := (List.nodup_append.mp hnodup).2.1
        rw [List.nodup_cons] at this
        intro h
        exact this.1 (h ▸ List.mem_cons_self j0 r2)
      have hj0done : j0 ∉ done := by
        have hd := (List.nodup_append.mp hnodup).2.2
        intro h
        exact hd h (by simp)
      have hj0N : j0 < N := by
        have : j0 ∈ List.range N := hperm.mem_iff.mp (by simp)
        simpa [List.mem_range] using this
      have hnotcov : ¬ ∀ j, j < N → j ∈ i :: done := by
        intro hcov
        rcases List.mem_cons.mp (hcov j0 hj0N) with h | h
        · exact hij0 h
        · exact hj0done h
      have hperm2 : List.Perm ((i :: done) ++ (j0 :: r2)) (List.range N) := by
        refine List.Perm.trans ?_ hperm
        show List.Perm (i :: (done ++ (j0 :: r2))) _
        exact List.perm_middle.symm
      obtain ⟨asm, hrun, href⟩ := ih (i :: done) (by simp) hperm2
      refine ⟨asm, ?_, href⟩
      show (Fragged.assembleRun MAX c f N _ (i :: j0 :: r2)).2 = _
      simp only [Fragged.assembleRun]
      rw [assemble_midState MAX N c i f done hNM hM hiN, if_neg hnotcov]
      show none :: (Fragged.assembleRun MAX c f N (midState c f MAX (i :: done)) (j0 :: r2)).2 = _
      rw [hrun]
      rfl

/-- C1.  Reassembler completeness: delivering the `N` fragments of one message
(1 ≤ N ≤ MAX ≤ 64) to a fresh reassembler in any order, all with the same
counter and `fragment_count = N`, makes exactly the last call return an
`Assembled` whose `as_ref` view is the `N` fragments in ordinal order, while
every earlier call returns `none`. -/
theorem c1_reassembler_completeness {α : Type} (MAX N c : Nat) (f : Nat → α)
    (l : List Nat) (hN : 1 ≤ N) (hNM : N ≤ MAX) (hM : MAX ≤ 64)
    (hperm : List.Perm l (List.range N)) :
    ∃ asm : Assembled α,
      (Fragged.assembleRun MAX c f N (Fragged.new α MAX) l).2 =
        List.replicate (N - 1) none ++ [some asm] ∧
      asm.as_ref = (List.range N).map (fun j => some (f j)) := by
  have hlen : l.length = N := by simpa using hperm.length_eq
  obtain ⟨i, rest, rfl⟩ : ∃ i rest, l = i :: rest := by
    cases l with
    | nil => simp at hlen; omega
    | cons i rest => exact ⟨i, rest, rfl⟩
  have hiN : i < N := by
    have : i ∈ List.range N := hperm.mem_iff.mp (by simp)
    simpa [List.mem_range] using this
  have hstep : Fragged.assembleRun MAX c f N (Fragged.new α MAX) (i :: rest) =
      Fragged.assembleRun MAX c f N (midState c f MAX []) (i :: rest) := by
    simp only [Fragged.assembleRun]
    rw [assemble_new MAX c f (f i) i N ⟨hiN, hNM⟩]
  rw [hstep]
  have hr := assembleRun_midState MAX N c f hNM hM (i :: rest) [] (by simp)
    (by simpa using hperm)
  simpa [hlen] using hr

end ZT

namespace ZT

/-- C6.  Reassembler reset: a call whose counter differs from the stored one
replaces the counter, drops exactly the previously held slots (those whose bit
is set in the bitmap), clears the bitmap, and starts a fresh assembly holding
only the newly delivered fragment (which, when `fragment_count = 1`, completes
immediately). -/
theorem c6_reassembler_reset {α : Type} (MAX : Nat) (st : Fragged α) (c : Nat)
    (x : α) (no cnt : Nat) (hc : c ≠ st.counter) (hno : no < cnt) (hcnt : cnt ≤ MAX)
    (hM : MAX ≤ 64) (hlen : st.frags.length = MAX) :
    (Fragged.assemble MAX st c x no cnt).1.counter = c ∧
    (Fragged.assemble MAX st c x no cnt).1.frags =
      (clearHeld st.haveBits st.frags).set no (some x) ∧
    (∀ i, i ≠ no →
      ((Fragged.assemble MAX st c x no cnt).1.frags)[i]? =
        if st.haveBits.testBit i then st.frags[i]?.map (fun _ => none)
        else st.frags[i]?) ∧
    (1 < cnt → (Fragged.assemble MAX st c x no cnt).1.haveBits = 1 <<< no ∧
      (Fragged.assemble MAX st c x no cnt).2 = none) ∧
    (cnt = 1 → (Fragged.assemble MAX st c x no cnt).1.haveBits = 0 ∧
      ∃ a, (Fragged.assemble MAX st c x no cnt).2 = some a ∧ a.as_ref = [some x]) := by
  have hguard : no < cnt ∧ cnt ≤ MAX := ⟨hno, hcnt⟩
  have hslot : ∀ i, i ≠ no →
      (((clearHeld st.haveBits st.frags).set no (some x)))[i]? =
        if st.haveBits.testBit i then st.frags[i]?.map (fun _ => none)
        else st.frags[i]? := by
    intro i hi
    rw [List.getElem?_set_ne (fun h => hi h.symm), clearHeld_getElem?]
    by_cases ht : st.haveBits.testBit i <;> cases st.frags[i]? <;> simp [ht]
  by_cases h1 : cnt = 1
  · subst h1
    have hno0 : no = 0 := by omega
    subst hno0
    rw [assemble_counter_ne MAX st c hc x 0 1 hguard, if_pos (by decide)]
    refine ⟨rfl, rfl, hslot, fun habs => absurd habs (lt_irrefl 1), fun _ => ⟨rfl, ⟨_, rfl, ?_⟩⟩⟩
    have hfr : (clearHeld st.haveBits st.frags).length = MAX := by
      rw [clearHeld_length, hlen]
    match hm : clearHeld st.haveBits st.frags with
    | [] =>
      rw [hm] at hfr
      simp at hfr
      omega
    | v :: t => simp [Assembled.as_ref]
  · have h2 : 1 < cnt := by omega
    have hcond : ¬ ((0 ||| (1 <<< no)) &&& ((2 ^ 64 - 1) >>> (64 - cnt)) =
        (2 ^ 64 - 1) >>> (64 - cnt)) := by
      rw [Nat.zero_or, land_want_iff (le_trans hcnt hM)]
      intro hall
      have hj0cnt : (if no = 0 then 1 else 0) < cnt := by split <;> omega
      have hbit := hall (if no = 0 then 1 else 0) hj0cnt
      rw [Nat.one_shiftLeft, Nat.testBit_two_pow] at hbit
      have hne : no ≠ (if no = 0 then 1 else 0) := by split <;> omega
      simp [hne] at hbit
    rw [assemble_counter_ne MAX st c hc x no cnt hguard, if_neg hcond]
    exact ⟨rfl, rfl, hslot, fun _ => ⟨Nat.zero_or _, rfl⟩, fun habs => absurd habs h1⟩

/-- Witness for C6 at a concrete input: counter change from 7 to 9 with a
non-final fragment. -/
theorem c6_reassembler_reset_witness :
    (Fragged.assemble 4 (⟨5, 7, [some 10, none, some 12, none]⟩ : Fragged Nat)
        9 99 1 3).1.counter = 9 ∧
    (Fragged.assemble 4 (⟨5, 7, [some 10, none, some 12, none]⟩ : Fragged Nat)
        9 99 1 3).1.haveBits = 1 <<< 1 ∧
    (Fragged.assemble 4 (⟨5, 7, [some 10, none, some 12, none]⟩ : Fragged Nat)
        9 99 1 3).2 = none :=
  have h := c6_reassembler_reset 4 ⟨5, 7, [some 10, none, some 12, none]⟩ 9 99 1 3
    (by decide) (by decide) (by decide) (by decide) (by decide)
  ⟨h.1, (h.2.2.2.1 (by decide)).1, (h.2.2.2.1 (by decide)).2⟩

/-- C10.  Invalid arguments (`fragment_no ≥ fragment_count` or
`fragment_count > MAX_FRAGMENTS`) are rejected without touching any state:
the stored counter, the bitmap and the held fragments are all unchanged and
no counter-change reset happens. -/
theorem c10_invalid_args_no_change {α : Type} (MAX : Nat) (st : Fragged α)
    (c : Nat) (x : α) (no cnt : Nat) (h : cnt ≤ no ∨ MAX < cnt) :
    Fragged.assemble MAX st c x no cnt = (st, none) := by
  unfold Fragged.assemble
  rw [if_neg (by omega)]

/-- Witness for C10: a call with `fragment_count` above the capacity and a
counter differing from the stored one leaves the state untouched. -/
theorem c10_invalid_args_no_change_witness :
    Fragged.assemble 2 (⟨3, 7, [some 1, none]⟩ : Fragged Nat) 9 5 0 3 =
      (⟨3, 7, [some 1, none]⟩, none) :=
  c10_invalid_args_no_change 2 ⟨3, 7, [some 1, none]⟩ 9 5 0 3 (Or.inr (by decide))

/-- Witness for C1: three fragments delivered in the order 2, 0, 1. -/
theorem c1_reassembler_completeness_witness :
    ∃ asm : Assembled Nat,
      (Fragged.assembleRun 8 5 (fun i => i + 100) 3 (Fragged.new Nat 8) [2, 0, 1]).2 =
        List.replicate 2 none ++ [some asm] ∧
      asm.as_ref = (List.range 3).map (fun j => some (j + 100)) :=
  c1_reassembler_completeness 8 3 5 (fun i => i + 100) [2, 0, 1] (by decide) (by decide)
    (by decide) (by decide)

end ZT

namespace ZT

theorem sessionid_max_eq : SessionId.MAX = 2 ^ 48 - 1 := by
  norm_num [SessionId.MAX]

theorem land_max_of_le {x : Nat} (h : x ≤ SessionId.MAX) : x &&& SessionId.MAX = x := by
  rw [sessionid_max_eq]
  apply Nat.eq_of_testBit_eq
  intro j
  rw [Nat.testBit_and, Nat.testBit_two_pow_sub_one]
  by_cases hj : j < 48
  · simp [hj]
  · have hx48 : x < 2 ^ 48 := by
      rw [sessionid_max_eq] at h
      omega
    have hxj : Nat.testBit x j = false :=
      Nat.testBit_lt_two_pow
        (lt_of_lt_of_le hx48 (Nat.pow_le_pow_right (by omega) (by omega)))
    simp [hxj, hj]

/-- C2.  SessionId round-trip: for `1 ≤ x ≤ MAX`, constructing the id,
serializing it to its 6 little-endian bytes, and parsing those bytes back
yields the same id. -/
theorem c2_sessionid_roundtrip (x : Nat) (h1 : 1 ≤ x) (h2 : x ≤ SessionId.MAX) :
    ∃ s, SessionId.new x = some s ∧
      SessionId.new_from_bytes (SessionId.as_bytes s) = some s := by
  refine ⟨x, ?_, ?_⟩
  · rw [SessionId.new, if_pos ⟨h2, by omega⟩]
  · have hparse : SessionId.u64FromLEBytes (SessionId.as_bytes x ++ [0, 0]) = x := by
      have hlt : x < 281474976710656 := by
        rw [sessionid_max_eq] at h2
        omega
      simp only [SessionId.as_bytes, SessionId.u64FromLEBytes,
        Nat.shiftRight_eq_div_pow, List.range_succ, List.range_zero,
        List.nil_append, List.cons_append, List.map_cons, List.map_nil,
        List.map_append, List.foldr_cons, List.foldr_nil, List.foldr_append]
      norm_num
      omega
    rw [SessionId.new_from_bytes, hparse, SessionId.new_from_u64_le,
      land_max_of_le h2, if_neg (by omega)]

/-- Witness for C2 at `x = 0x12345`. -/
theorem c2_sessionid_roundtrip_witness :
    ∃ s, SessionId.new 74565 = some s ∧
      SessionId.new_from_bytes (SessionId.as_bytes s) = some s :=
  c2_sessionid_roundtrip 74565 (by norm_num) (by norm_num [SessionId.MAX])

/-- C9 counterexample: it is not the case that every value in `[1, MAX]` is
reachable from some PRNG output — the value `MAX` itself is never produced,
since `random` computes `(x % (MAX - 1)) + 1 ≤ MAX - 1`. -/
theorem c9_random_counterexample :
    ¬ (∀ v, 1 ≤ v → v ≤ SessionId.MAX → ∃ x, SessionId.random x = v) := by
  intro h
  obtain ⟨x, hx⟩ := h SessionId.MAX (by norm_num [SessionId.MAX]) le_rfl
  rw [SessionId.random] at hx
  have hmax : SessionId.MAX = 281474976710655 := by norm_num [SessionId.MAX]
  rw [hmax] at hx
  omega

/-- C9 amended.  Every value returned by `SessionId::random` lies in
`[1, MAX - 1]`, and every value of that interval (not of `[1, MAX]`) is
produced by some PRNG output. -/
theorem c9_random_range (v : Nat) (h1 : 1 ≤ v) (h2 : v ≤ SessionId.MAX - 1) :
    (∃ x, SessionId.random x = v) ∧
      ∀ x, 1 ≤ SessionId.random x ∧ SessionId.random x ≤ SessionId.MAX - 1 := by
  have hmax : SessionId.MAX = 281474976710655 := by norm_num [SessionId.MAX]
  rw [hmax] at h2
  constructor
  · refine ⟨v - 1, ?_⟩
    rw [SessionId.random, hmax]
    omega
  · intro x
    rw [SessionId.random, hmax]
    omega

/-- Witness for the amended C9 at `v = 5`. -/
theorem c9_random_range_witness :
    (∃ x, SessionId.random x = 5) ∧
      ∀ x, 1 ≤ SessionId.random x ∧ SessionId.random x ≤ SessionId.MAX - 1 :=
  c9_random_range 5 (by norm_num) (by norm_num [SessionId.MAX])

end ZT


namespace ZT

/-! ### Root manager and online state (`Node::update_best_root`,
`src/network-hypervisor/src/vl1/node.rs`) -/

/-- One step of the best-root scan loop of `Node::update_best_root`. -/
def bestStep (p : Option Int × Int) (t : Int) : Option Int × Int :=
  if t > p.2 then (some t, t) else p

/-- The best-root scan of `Node::update_best_root`: walk the roots (modelled by
the list of their `last_hello_reply_time_ticks` values), tracking the latest
reply time and whether some best root was found.  The accumulator starts at
`(None, 0)`. -/
def bestScan (replies : List Int) : Option Int × Int :=
  replies.foldl bestStep ((none : Option Int), (0 : Int))

/-- The online determination of `Node::update_best_root`, parameterized by the
constant `ROOT_HELLO_INTERVAL` (defined in `protocol.rs`, outside the
excerpt): the node is online when
`(time_ticks - latest_hello_reply) < ROOT_HELLO_INTERVAL * 2 && best.is_some()`;
the stored flag is written and an `Online` event emitted only on a
transition.  Returns the new flag and the emitted `Online` payloads. -/
def updateBestRoot (I : Int) (replies : List Int) (online : Bool) (now : Int) :
    Bool × List Bool :=
  let p := bestScan replies
  if now - p.2 < I * 2 ∧ p.1.isSome then
    if !online then (true, [true]) else (online, [])
  else
    if online then (false, [false]) else (online, [])

theorem bestStep_foldl_snd (l : List Int) (b : Option Int) (v : Int) :
    (l.foldl bestStep (b, v)).2 = l.foldl max v := by
  induction l generalizing b v with
  | nil => rfl
  | cons t rest ih =>
    show (rest.foldl bestStep (bestStep (b, v) t)).2 = rest.foldl max (max v t)
    rw [bestStep]
    by_cases ht : t > v
    · rw [if_pos ht]
      rw [ih, max_eq_right (le_of_lt ht)]
    · rw [if_neg ht]
      rw [ih, max_eq_left (by omega)]

theorem bestStep_foldl_isSome (l : List Int) (b : Option Int) (v : Int) :
    (l.foldl bestStep (b, v)).1.isSome = true ↔
      b.isSome = true ∨ ∃ t ∈ l, v < t := by
  induction l generalizing b v with
  | nil => simp
  | cons t rest ih =>
    show (rest.foldl bestStep (bestStep (b, v) t)).1.isSome = true ↔ _
    rw [bestStep]
    by_cases ht : t > v
    · rw [if_pos ht, ih]
      simp only [Option.isSome_some, List.mem_cons]
      constructor
      · intro _
        exact Or.inr ⟨t, Or.inl rfl, ht⟩
      · intro _
        exact Or.inl trivial
    · rw [if_neg ht, ih]
      constructor
      · rintro (hb | ⟨u, hu, hvu⟩)
        · exact Or.inl hb
        · exact Or.inr ⟨u, List.mem_cons_of_mem t hu, hvu⟩
      · rintro (hb | ⟨u, hu, hvu⟩)
        · exact Or.inl hb
        · rcases List.mem_cons.mp hu with rfl | hu2
          · exact absurd hvu ht
          · exact Or.inr ⟨u, hu2, hvu⟩

theorem foldl_max_mem (l : List Int) (a : Int) :
    l.foldl max a = a ∨ l.foldl max a ∈ l := by
  induction l generalizing a with
  | nil => exact Or.inl rfl
  | cons t rest ih =>
    rcases ih (max a t) with h | h
    · by_cases hat : a ≤ t
      · right
        rw [List.foldl_cons, h, max_eq_right hat]
        exact List.mem_cons_self t rest
      · left
        rw [List.foldl_cons, h, max_eq_left (by omega)]
    · right
      exact List.mem_cons_of_mem t h

theorem le_foldl_max (l : List Int) (a : Int) :
    a ≤ l.foldl max a ∧ ∀ t ∈ l, t ≤ l.foldl max a := by
  induction l generalizing a with
  | nil => exact ⟨le_refl a, by simp⟩
  | cons t rest ih =>
    rcases ih (max a t) with ⟨h1, h2⟩
    refine ⟨le_trans (le_max_left a t) h1, ?_⟩
    intro u hu
    rcases List.mem_cons.mp hu with rfl | hu2
    · exact le_trans (le_max_right a u) h1
    · exact h2 u hu2

/-- C3 counterexample: with `ROOT_HELLO_INTERVAL = 1000`, one root whose last
HELLO reply was at tick 5, and `now = 2005`, the boundary case
`now - reply = 2 * ROOT_HELLO_INTERVAL` makes the code go offline while the
claimed `≤` comparison would call the node online. -/
theorem c3_online_counterexample :
    ¬ ((updateBestRoot 1000 [5] false 2005).1 = true ↔
        ∃ t ∈ ([5] : List Int), 2005 - t ≤ 2 * 1000) := by
  decide

/-- C3 amended.  After `update_best_root` runs, the node is online if and
only if some root has a positive `last_hello_reply_time_ticks` value `t` with
`now - t < 2 * ROOT_HELLO_INTERVAL` (strict comparison; roots that never
replied do not count). -/
theorem c3_online_invariant (I : Int) (replies : List Int) (online : Bool)
    (now : Int) :
    (updateBestRoot I replies online now).1 = true ↔
      ∃ t ∈ replies, 0 < t ∧ now - t < I * 2 := by
  have hsnd : (bestScan replies).2 = replies.foldl max 0 :=
    bestStep_foldl_snd replies none 0
  have hsome : (bestScan replies).1.isSome = true ↔ ∃ t ∈ replies, 0 < t := by
    rw [bestScan, bestStep_foldl_isSome]
    simp
  have hres : (updateBestRoot I replies online now).1 = true ↔
      (now - (bestScan replies).2 < I * 2 ∧ (bestScan replies).1.isSome) := by
    rw [updateBestRoot]
    by_cases hc : now - (bestScan replies).2 < I * 2 ∧ (bestScan replies).1.isSome
    · rw [if_pos hc]
      cases online <;> simp [hc]
    · rw [if_neg hc]
      cases online <;> simp [hc]
  rw [hres, hsnd, hsome]
  constructor
  · rintro ⟨hlt, t0, ht0, ht0pos⟩
    rcases foldl_max_mem replies 0 with hm | hm
    · exfalso
      have := (le_foldl_max replies 0).2 t0 ht0
      omega
    · refine ⟨replies.foldl max 0, hm, ?_, hlt⟩
      have := (le_foldl_max replies 0).2 t0 ht0
      omega
  · rintro ⟨t, ht, htpos, htlt⟩
    have hle := (le_foldl_max replies 0).2 t ht
    exact ⟨by omega, t, ht, by omega⟩

end ZT

namespace ZT

/-- The online condition computed by one `update_best_root` call (the value
the stored flag holds after the call). -/
def condOnline (I : Int) (replies : List Int) (now : Int) : Bool :=
  decide (now - (bestScan replies).2 < I * 2 ∧ (bestScan replies).1.isSome = true)

/-- A scheduler run: each tick carries the current root reply times and the
current `time_ticks`, and runs `update_best_root`, threading the online flag
and concatenating the emitted `Online` event payloads. -/
def runTicks (I : Int) : Bool → List (List Int × Int) → Bool × List Bool
  | o, [] => (o, [])
  | o, (r, n) :: rest =>
    let p := updateBestRoot I r o n
    let q := runTicks I p.1 rest
    (q.1, p.2 ++ q.2)

/-- The events the spec prescribes: exactly one `Online(b)` per change of the
online state, none when a tick leaves the state unchanged. -/
def transitionEvents (I : Int) : Bool → List (List Int × Int) → List Bool
  | _, [] => []
  | o, (r, n) :: rest =>
    (if condOnline I r n = o then [] else [condOnline I r n]) ++
      transitionEvents I (condOnline I r n) rest

theorem updateBestRoot_eq_cond (I : Int) (r : List Int) (o : Bool) (n : Int) :
    updateBestRoot I r o n =
      (condOnline I r n, if condOnline I r n = o then [] else [condOnline I r n]) := by
  rw [updateBestRoot, condOnline]
  by_cases hc : n - (bestScan r).2 < I * 2 ∧ (bestScan r).1.isSome = true
  · rw [if_pos (by simpa using hc)]
    cases o <;> simp [hc]
  · rw [if_neg (by simpa using hc)]
    cases o <;> simp [hc]

/-- C8.  Over any sequence of scheduler ticks, the `Online` events emitted by
`update_best_root` are exactly one event per change of the online state (with
the new state as payload) and none for a tick that does not change it. -/
theorem c8_online_events_per_transition (I : Int) (o : Bool)
    (l : List (List Int × Int)) :
    (runTicks I o l).2 = transitionEvents I o l := by
  induction l generalizing o with
  | nil => rfl
  | cons p rest ih =>
    obtain ⟨r, n⟩ := p
    show (updateBestRoot I r o n).2 ++
        (runTicks I (updateBestRoot I r o n).1 rest).2 = _
    rw [updateBestRoot_eq_cond]
    show (if condOnline I r n = o then [] else [condOnline I r n]) ++
        (runTicks I (condOnline I r n) rest).2 = _
    rw [ih]
    rfl

/-! ### Root-set updates (`Node::remote_update_root_set` and
`Node::add_update_root_set`, `src/network-hypervisor/src/vl1/node.rs`) -/

/-- A verified root set: a name and its member identities (identities are
modelled by their numeric fingerprint; endpoints play no role in these
claims). -/
structure RootSetM where
  name : String
  members : List Nat
deriving DecidableEq

/-- The `sets` map of `RootInfo` with its `sets_modified` flag.  The
`HashMap<String, Verified<RootSet>>` is modelled as an association list keyed
by name. -/
structure RootsStateM where
  sets : List (String × RootSetM)
  sets_modified : Bool
deriving DecidableEq

/-- In-place replacement of the entry named `rs.name` (the `*entry = rs` of
the source). -/
def replaceSet (sets : List (String × RootSetM)) (rs : RootSetM) :
    List (String × RootSetM) :=
  sets.map (fun p => if p.1 = rs.name then (p.1, rs) else p)

/-- `Node::remote_update_root_set(received_from, rs)`, parameterized by the
externally defined `RootSet::should_replace` predicate `sr`: the update is
applied only when a set of that name exists, `received_from` is one of its
current members, and `sr rs entry` holds; otherwise the state is unchanged. -/
def remote_update_root_set (sr : RootSetM → RootSetM → Bool) (st : RootsStateM)
    (received_from : Nat) (rs : RootSetM) : RootsStateM :=
  match st.sets.lookup rs.name with
  | some entry =>
    if (entry.members.any (fun m => m = received_from)) && sr rs entry then
      ⟨replaceSet st.sets rs, true⟩
    else st
  | none => st

/-- `Node::add_update_root_set(rs)`: replace a same-named set when
`should_replace` allows it, insert a set under a new name otherwise; returns
whether the state changed. -/
def add_update_root_set (sr : RootSetM → RootSetM → Bool) (st : RootsStateM)
    (rs : RootSetM) : RootsStateM × Bool :=
  match st.sets.lookup rs.name with
  | some entry =>
    if sr rs entry then (⟨replaceSet st.sets rs, true⟩, true)
    else (st, false)
  | none => (⟨st.sets ++ [(rs.name, rs)], true⟩, true)

theorem lookup_replaceSet_isSome (sets : List (String × RootSetM))
    (rs : RootSetM) (n : String) :
    ((replaceSet sets rs).lookup n).isSome = true ↔
      (sets.lookup n).isSome = true := by
  simp only [replaceSet, List.lookup_isSome_iff, List.mem_map]
  constructor
  · rintro ⟨p, ⟨q, hq, rfl⟩, hn⟩
    refine ⟨q, hq, ?_⟩
    by_cases h : q.1 = rs.name <;> simpa [h] using hn
  · rintro ⟨q, hq, hn⟩
    refine ⟨if q.1 = rs.name then (q.1, rs) else q, ⟨q, hq, rfl⟩, ?_⟩
    by_cases h : q.1 = rs.name <;> simpa [h] using hn

end ZT

namespace ZT

/-- C5.  No new roots from the wire: `remote_update_root_set` never changes
the number of root sets and never introduces a set under a new name; it
replaces the set named `rs.name` (setting `sets_modified`) exactly when that
name already exists, the sender is a current member of the existing set, and
`should_replace` accepts the replacement — in every other case the state is
untouched.  Only `add_update_root_set` can insert a set under a new name. -/
theorem c5_no_new_roots_from_wire (sr : RootSetM → RootSetM → Bool)
    (st : RootsStateM) (received_from : Nat) (rs : RootSetM) :
    (remote_update_root_set sr st received_from rs).sets.length =
      st.sets.length ∧
    (∀ n, ((remote_update_root_set sr st received_from rs).sets.lookup n).isSome
        = true ↔ (st.sets.lookup n).isSome = true) ∧
    ((∃ e, st.sets.lookup rs.name = some e ∧ received_from ∈ e.members ∧
        sr rs e = true) →
      remote_update_root_set sr st received_from rs =
        ⟨replaceSet st.sets rs, true⟩) ∧
    ((¬ ∃ e, st.sets.lookup rs.name = some e ∧ received_from ∈ e.members ∧
        sr rs e = true) →
      remote_update_root_set sr st received_from rs = st) ∧
    (st.sets.lookup rs.name = none →
      (add_update_root_set sr st rs).1.sets = st.sets ++ [(rs.name, rs)]) := by
  by_cases hl : ∃ e, st.sets.lookup rs.name = some e
  · obtain ⟨e, he⟩ := hl
    by_cases hcond :
        ((e.members.any fun m => m = received_from) && sr rs e) = true
    · have hres : remote_update_root_set sr st received_from rs =
          ⟨replaceSet st.sets rs, true⟩ := by
        simp only [remote_update_root_set, he]
        rw [if_pos hcond]
      have hparts := hcond
      simp only [Bool.and_eq_true, List.any_eq_true, decide_eq_true_eq] at hparts
      obtain ⟨⟨m, hm, rfl⟩, hsr⟩ := hparts
      refine ⟨by rw [hres]; simp [replaceSet],
        fun n => by rw [hres]; exact lookup_replaceSet_isSome st.sets rs n,
        fun _ => hres, ?_, ?_⟩
      · intro hno
        exact absurd ⟨e, he, hm, hsr⟩ hno
      · intro hnone
        rw [he] at hnone
        exact Option.noConfusion hnone
    · have hres : remote_update_root_set sr st received_from rs = st := by
        simp only [remote_update_root_set, he]
        rw [if_neg hcond]
      refine ⟨by rw [hres], fun n => by rw [hres], ?_, fun _ => hres, ?_⟩
      · rintro ⟨e2, he2, hmem, hsr⟩
        rw [he] at he2
        obtain rfl : e2 = e := (Option.some.injEq _ _ ▸ he2).symm
        exfalso
        apply hcond
        simp only [Bool.and_eq_true, List.any_eq_true, decide_eq_true_eq]
        exact ⟨⟨received_from, hmem, rfl⟩, hsr⟩
      · intro hnone
        rw [he] at hnone
        exact Option.noConfusion hnone
  · have hnone : st.sets.lookup rs.name = none := by
      cases hx : st.sets.lookup rs.name with
      | none => rfl
      | some e => exact absurd ⟨e, hx⟩ hl
    have hres : remote_update_root_set sr st received_from rs = st := by
      simp only [remote_update_root_set, hnone]
    refine ⟨by rw [hres], fun n => by rw [hres], ?_, fun _ => hres, ?_⟩
    · rintro ⟨e, he, _⟩
      rw [hnone] at he
      exact Option.noConfusion he
    · intro _
      simp only [add_update_root_set, hnone]

/-- Witness for C5: a wire update from a current member of an existing
same-named set is applied; the set count stays 1. -/
theorem c5_no_new_roots_from_wire_witness :
    remote_update_root_set (fun _ _ => true)
        ⟨[("earth", ⟨"earth", [7, 8]⟩)], false⟩ 7 ⟨"earth", [9]⟩ =
      ⟨replaceSet [("earth", ⟨"earth", [7, 8]⟩)] ⟨"earth", [9]⟩, true⟩ :=
  (c5_no_new_roots_from_wire (fun _ _ => true)
      ⟨[("earth", ⟨"earth", [7, 8]⟩)], false⟩ 7 ⟨"earth", [9]⟩).2.2.1
    ⟨⟨"earth", [7, 8]⟩, by decide, by decide, rfl⟩

end ZT

namespace ZT

/-! ### Forwarding of v1 datagrams addressed to other nodes
(`Node::handle_incoming_physical_packet`,
`src/network-hypervisor/src/vl1/node.rs`) -/

/-- Modelled from the spec: `increment_hops` (defined in `protocol.rs`,
outside the excerpt) increments the header's hops counter in place and
returns the new value; per the spec, a forwarded datagram is dropped when the
incremented value exceeds `FORWARD_MAX_HOPS`. -/
def increment_hops (hops : Nat) : Nat := hops + 1

/-- The forwarding branch of `handle_incoming_physical_packet` for a legacy
datagram whose destination is another node, parameterized by the constant
`FORWARD_MAX_HOPS`: increment the hops counter in place; if the result
exceeds the limit, drop silently; otherwise forward to the destination's peer
when one exists.  Returns the hops value now stored in the header and the
peer the datagram was forwarded to (`none` when dropped or when no peer
exists). -/
def forwardV1 (FORWARD_MAX_HOPS : Nat) (hops : Nat) (destPeer : Option Nat) :
    Nat × Option Nat :=
  let h := increment_hops hops
  if h > FORWARD_MAX_HOPS then (h, none)
  else
    match destPeer with
    | some p => (h, some p)
    | none => (h, none)

/-- C4.  Hop limit: a datagram whose hops counter already equals
`FORWARD_MAX_HOPS` is dropped (no forward happens; only the in-place hops
increment remains), while one strictly below the limit is forwarded to the
destination peer when that peer exists, with the counter incremented in
place. -/
theorem c4_hop_limit (FMH hops : Nat) (destPeer : Option Nat) :
    (hops = FMH → forwardV1 FMH hops destPeer = (hops + 1, none)) ∧
    (hops < FMH → ∀ p, destPeer = some p →
      forwardV1 FMH hops destPeer = (hops + 1, some p)) := by
  constructor
  · intro heq
    subst heq
    simp [forwardV1, increment_hops]
  · intro hlt p hp
    subst hp
    simp only [forwardV1, increment_hops]
    rw [if_neg (by omega)]

/-- Witness for C4 with `FORWARD_MAX_HOPS = 7`: hops 7 is dropped, hops 2 is
forwarded to the destination peer. -/
theorem c4_hop_limit_witness :
    forwardV1 7 7 (some 3) = (8, none) ∧ forwardV1 7 2 (some 3) = (3, some 3) :=
  ⟨(c4_hop_limit 7 7 (some 3)).1 rfl, (c4_hop_limit 7 2 (some 3)).2 (by omega) 3 rfl⟩

/-! ### Ingress dispatch of self-destined v1 packets
(`Node::handle_incoming_physical_packet`,
`src/network-hypervisor/src/vl1/node.rs`) -/

/-- Action the dispatcher takes on a legacy packet addressed to this node. -/
inductive SelfAction (β : Type) where
  | deliver (pkt : β)
  | whoisEnqueue (pkt : β)
  | noAction
deriving DecidableEq

/-- The self-destined branch of `handle_incoming_physical_packet` for legacy
packets, as written in the source.  `isFragment` is the fragment flag of the
header; `assembled` is the result of `path.receive_fragment` (the assembled
packet on completion); `sourceKnown` says whether the peer table has the
source address; `buf` is the packet payload used for delivery or WHOIS.  In
the fragment branch the source's WHOIS call is commented out, so an assembled
packet from an unknown source falls through with no action; the whole
unfragmented branch is compiled only under `cfg(debug_assertions)`, which the
`debugAssertions` flag reflects. -/
def dispatchSelfV1 {β : Type} (debugAssertions : Bool) (isFragment : Bool)
    (assembled : Option β) (sourceKnown : Bool) (buf : β) : SelfAction β :=
  if isFragment then
    match assembled with
    | some pkt =>
      if sourceKnown then SelfAction.deliver pkt else SelfAction.noAction
    | none => SelfAction.noAction
  else
    if debugAssertions then
      if sourceKnown then SelfAction.deliver buf else SelfAction.whoisEnqueue buf
    else SelfAction.noAction

/-- C7 failing input: a fully reassembled legacy packet whose source address
is unknown is silently discarded — no WHOIS is enqueued — in both build
configurations, because the WHOIS call in the fragment branch of the source
is commented out. -/
theorem c7_whois_missing_on_assembled :
    dispatchSelfV1 true true (some 42) false 0 = SelfAction.noAction ∧
    dispatchSelfV1 false true (some 42) false 0 = SelfAction.noAction ∧
    dispatchSelfV1 true false (none : Option Nat) false 42 =
      SelfAction.whoisEnqueue 42 := by
  refine ⟨rfl, rfl, rfl⟩

end ZT
